import Mathlib

/-!
Shallow embedding of the TaskFlow deterministic core (text validator, text
normalizer, classifier and graph builder) together with proofs about it.

Python strings are modelled as Lean `String`s (lists of characters); the
regex character classes that appear in the sources are modelled over their
ASCII meaning.  Regular-expression tables whose content no claim depends on
(the noise-pattern table, the filename / URL / action-verb matchers and the
clock-time extraction patterns) are modelled as opaque boolean predicates
that the embedded functions receive as parameters; every theorem below
quantifies over them, so nothing is assumed about their behaviour.
-/

namespace TaskFlow

/-- ASCII whitespace, the characters matched by the Python regex class
backslash-s and split on by str.split / stripped by str.strip. -/
def isPySpace (c : Char) : Bool :=
  c = ' ' || c = '\t' || c = '\n' || c = '\r' || c = '\x0b' || c = '\x0c'

/-- Decides whether the first list is an initial segment of the second. -/
def isPre : List Char → List Char → Bool
  | [], _ => true
  | _ :: _, [] => false
  | a :: as, b :: bs => a = b && isPre as bs

/-- Substring test on character lists: Python's `needle in hay`. -/
def containsSub (needle : List Char) : List Char → Bool
  | [] => needle.isEmpty
  | c :: cs => isPre needle (c :: cs) || containsSub needle cs

/-- Python `needle in hay` on strings. -/
def pyContains (needle hay : String) : Bool :=
  containsSub needle.data hay.data

/-- Python str.lower (ASCII model). -/
def pyLower (s : String) : String :=
  ⟨s.data.map Char.toLower⟩

/-- Remove leading ASCII whitespace. -/
def lstripWs (l : List Char) : List Char :=
  l.dropWhile isPySpace

/-- Remove trailing ASCII whitespace. -/
def rstripWs (l : List Char) : List Char :=
  (l.reverse.dropWhile isPySpace).reverse

/-- Python str.strip on character lists. -/
def stripWs (l : List Char) : List Char :=
  rstripWs (lstripWs l)

/-- Python str.strip on strings. -/
def pyStrip (s : String) : String :=
  ⟨stripWs s.data⟩

/-- Word counter: `inWord` records whether the previous character was
part of a word.  Counts the maximal non-whitespace runs, i.e. the length
of Python's `s.split()`. -/
def wcAux : Bool → List Char → Nat
  | _, [] => 0
  | inWord, c :: cs =>
    if isPySpace c then wcAux false cs
    else (if inWord then 0 else 1) + wcAux true cs

/-- Number of whitespace-separated words of a string: `len(s.split())`. -/
def pyWordCount (s : String) : Nat :=
  wcAux false s.data

/-- The task categories of `app.models.task.TaskCategory`. -/
inductive TaskCategory where
  | DEPLOY
  | MESSAGE
  | EMAIL
  | REMINDER
  | JIRA_UPDATE
  | OTHER
deriving DecidableEq

/-- `TaskClassifier.DEPLOY_KEYWORDS`. -/
def DEPLOY_KEYWORDS : List String :=
  ["deploy", "release", "push to prod", "production", "ship", "launch",
   "rollout", "go live", "merge to main", "ci/cd", "pipeline"]

/-- `TaskClassifier.MESSAGE_KEYWORDS`. -/
def MESSAGE_KEYWORDS : List String :=
  ["ping", "message", "dm", "slack", "teams", "chat", "tell", "ask",
   "reach out", "contact", "quick note", "follow up with"]

/-- `TaskClassifier.EMAIL_KEYWORDS`. -/
def EMAIL_KEYWORDS : List String :=
  ["email", "mail", "send to", "compose", "draft", "cc", "bcc",
   "subject:", "dear", "regards", "formal"]

/-- `TaskClassifier.REMINDER_KEYWORDS`. -/
def REMINDER_KEYWORDS : List String :=
  ["remind", "reminder", "tomorrow", "next week", "next month",
   "by end of", "deadline", "due", "schedule", "calendar",
   "don't forget", "remember to"]

/-- `TaskClassifier.JIRA_KEYWORDS`. -/
def JIRA_KEYWORDS : List String :=
  ["jira", "ticket", "issue", "bug", "story", "epic", "sprint",
   "backlog", "kanban", "update ticket", "close ticket", "assign",
   "status update", "move to", "in progress", "code review"]

/-- `TaskClassifier.classify`.  The trailing date/time regex scan (three
patterns searched over the lowered text) is the opaque parameter
`timeRe`; the keyword stages are fully concrete. -/
def classify (timeRe : String → Bool) (text : String) : TaskCategory :=
  let textLower := pyLower text
  if JIRA_KEYWORDS.any (fun k => pyContains k textLower) then .JIRA_UPDATE
  else if DEPLOY_KEYWORDS.any (fun k => pyContains k textLower) then .DEPLOY
  else if MESSAGE_KEYWORDS.any (fun k => pyContains k textLower) then .MESSAGE
  else if EMAIL_KEYWORDS.any (fun k => pyContains k textLower) then .EMAIL
  else if REMINDER_KEYWORDS.any (fun k => pyContains k textLower) then .REMINDER
  else if timeRe textLower then .REMINDER
  else .OTHER

/-- The regex-driven helpers of `TaskValidator` whose pattern tables no
claim depends on, modelled as opaque predicates: `noiseRe` is the
NOISE_PATTERNS scan over the stripped text, `nonActionableRe` the
NON_ACTIONABLE_PATTERNS scan over the lowered text, `filenameRe` is
`is_filename`, `urlRe` is `is_url_only`, and `actionVerbRe` is
`has_action_verb` (the whole-word ACTION_VERBS search). -/
structure ReOracles where
  noiseRe : String → Bool
  nonActionableRe : String → Bool
  filenameRe : String → Bool
  urlRe : String → Bool
  actionVerbRe : String → Bool

/-- `ACTION_INDICATORS` from `ai_service.py`. -/
def ACTION_INDICATORS : List String :=
  ["can you", "could you", "would you", "please", "need to", "should", "must",
   "have to", "required", "urgent", "asap", "priority", "deadline", "by eod",
   "by end of", "before", "action required", "action needed", "your turn",
   "waiting on you", "blocked on", "depends on you", "assigned to you",
   "@", "sujay", "suji"]

/-- `TaskValidator.has_action_indicator`: plain substring scan of the
lowered text against ACTION_INDICATORS. -/
def has_action_indicator (text : String) : Bool :=
  let tl := pyLower text
  ACTION_INDICATORS.any (fun k => pyContains k tl)

/-- Number of alphabetic characters (Python `c.isalpha()`, ASCII model). -/
def alphaCount (l : List Char) : Nat :=
  (l.filter Char.isAlpha).length

/-- The bare-ticket pattern of `ai_service.py`: one or more uppercase
letters, a hyphen, one or more digits, then only whitespace up to the end
(regex caret-[A-Z]+-digits-whitespace-dollar under re.match). -/
def bareTicket (l : List Char) : Bool :=
  let us := l.takeWhile (fun c => decide ('A' ≤ c) && decide (c ≤ 'Z'))
  if us.isEmpty then false
  else
    match l.drop us.length with
    | '-' :: r2 =>
      let ds := r2.takeWhile Char.isDigit
      !ds.isEmpty && (r2.drop ds.length).all isPySpace
    | _ => false

/-- `TaskValidator.is_noise`.  The two pattern-table scans are the opaque
oracles; the length, word-count and alphabetic-density checks are
concrete (the 40 percent float threshold is modelled as the exact
rational 2/5). -/
def is_noise (o : ReOracles) (text : String) : Bool :=
  if text = "" then true
  else
    let ts := pyStrip text
    let tl := pyLower ts
    if o.noiseRe ts then true
    else if o.nonActionableRe tl then true
    else if ts.length < 15 then true
    else if pyWordCount ts < 3 then true
    else decide (5 * alphaCount ts.data < 2 * ts.length)

/-- `TaskValidator.is_meaningful_task`.  Faithful to the source: the
second argument `original_text` appears in the Python signature (with
default value the empty string) but is never read by the body. -/
def is_meaningful_task (o : ReOracles) (task_text original_text : String) : Bool :=
  if task_text = "" then false
  else if is_noise o task_text then false
  else if o.filenameRe task_text then false
  else if o.urlRe task_text then false
  else if !o.actionVerbRe task_text && !has_action_indicator task_text then false
  else if bareTicket (stripWs task_text.data) then false
  else true

/-- The leading/trailing decoration class of `clean_task_text`:
whitespace, hyphen, bullet, asterisk, arrow, parentheses and brackets. -/
def isStripChar (c : Char) : Bool :=
  isPySpace c || c = '-' || c = '•' || c = '*' || c = '→' ||
    c = ')' || c = '(' || c = '[' || c = ']'

/-- Step 1 of `clean_task_text`: remove the leading decoration run. -/
def dropLead (l : List Char) : List Char :=
  l.dropWhile isStripChar

/-- Step 2 of `clean_task_text`: remove the trailing decoration run. -/
def dropTrail (l : List Char) : List Char :=
  (l.reverse.dropWhile isStripChar).reverse

/-- Step 3 of `clean_task_text`: replace every maximal whitespace run by
a single space (regex whitespace-plus replaced by one space). -/
def collapseWs : List Char → List Char
  | [] => []
  | [c] => if isPySpace c then [' '] else [c]
  | c₁ :: c₂ :: rest =>
    if isPySpace c₁ && isPySpace c₂ then collapseWs (c₂ :: rest)
    else (if isPySpace c₁ then ' ' else c₁) :: collapseWs (c₂ :: rest)

/-- Step 4 of `clean_task_text`: remove one leading list-numbering
prefix — a maximal digit run followed by '.', ')' or ']' and any
whitespace after it; no change when the text does not start that way. -/
def numPrefixDrop (l : List Char) : List Char :=
  let ds := l.takeWhile Char.isDigit
  if ds.isEmpty then l
  else
    match l.drop ds.length with
    | c :: rest => if c = '.' || c = ')' || c = ']' then rest.dropWhile isPySpace else l
    | [] => l

/-- `TaskValidator.clean_task_text` on character lists: decoration
stripping, whitespace collapsing, list-number removal, final strip. -/
def cleanChars (l : List Char) : List Char :=
  stripWs (numPrefixDrop (collapseWs (dropTrail (dropLead l))))

/-- `TaskValidator.clean_task_text` (the spec's CleanTaskText). -/
def clean_task_text (s : String) : String :=
  ⟨cleanChars s.data⟩

/-- A task record as read by `GraphService.build_graph`: the fields of
`app.models.task.Task` the builder consumes.  `due_at` is modelled as
minutes since midnight of the scheduled datetime; `was_improved` is a
nullable boolean column. -/
structure Task where
  id : Nat
  clean_text : String
  raw_text : String
  original_message : Option String
  category : TaskCategory
  depends_on : List Nat
  due_at : Option Nat
  was_improved : Option Bool
deriving DecidableEq

/-- `app.schemas.graph.GraphNode`. -/
structure GraphNode where
  id : String
  label : String
  category : TaskCategory
  time : Option String
  dependsOn : List String
  raw_text : String
  original_message : Option String
  was_improved : Bool
deriving DecidableEq

/-- `app.schemas.graph.GraphEdge` (the label is always set by the builder). -/
structure GraphEdge where
  source : String
  target : String
  label : String
deriving DecidableEq

/-- `app.schemas.graph.GraphResponse`. -/
structure GraphResponse where
  nodes : List GraphNode
  edges : List GraphEdge
deriving DecidableEq

/-- Shape of every entry of `GraphService.DEPENDENCY_PATTERNS`: a literal
head word, at least one whitespace character, optionally an arbitrary
run of non-newline characters (for the patterns containing a dot-star),
then one of the alternative literals (the empty alternative encodes the
final pattern, which requires nothing after the whitespace). -/
structure Pat where
  head : List Char
  dotStar : Bool
  alts : List (List Char)
deriving DecidableEq

/-- One of the alternative literals starts here. -/
def altsPre (alts : List (List Char)) (s : List Char) : Bool :=
  alts.any (fun a => isPre a s)

/-- Dot-star stage: an alternative starts at this position or further
right, without crossing a newline (regex dot does not match newline). -/
def scanNoNl (alts : List (List Char)) : List Char → Bool
  | [] => altsPre alts []
  | c :: cs => altsPre alts (c :: cs) || (decide (c ≠ '\n') && scanNoNl alts cs)

/-- Continuation after the whitespace of a pattern. -/
def tailAt (p : Pat) (s : List Char) : Bool :=
  if p.dotStar then scanNoNl p.alts s else altsPre p.alts s

/-- One whitespace character has been consumed; consume more or proceed. -/
def wsThen (p : Pat) : List Char → Bool
  | [] => tailAt p []
  | c :: cs => tailAt p (c :: cs) || (isPySpace c && wsThen p cs)

/-- After the head literal: at least one whitespace, then the tail. -/
def afterHead (p : Pat) : List Char → Bool
  | [] => false
  | c :: cs => isPySpace c && wsThen p cs

/-- `re.search` of a `Pat` over a character list: the pattern matches
starting at some position. -/
def searchPat (p : Pat) : List Char → Bool
  | [] => false
  | c :: cs =>
    (isPre p.head (c :: cs) && afterHead p ((c :: cs).drop p.head.length)) ||
      searchPat p cs

/-- `re.search` of a `Pat` over a string. -/
def searchStr (p : Pat) (s : String) : Bool :=
  searchPat p s.data

/-- `GraphService.DEPENDENCY_PATTERNS`, in source order. -/
def DEPENDENCY_PATTERNS : List (Pat × Option TaskCategory) :=
  [(⟨"after".data, false, ["deploy".data, "release".data, "ship".data]⟩, some .DEPLOY),
   (⟨"after".data, false, ["message".data, "ping".data, "dm".data, "contact".data]⟩, some .MESSAGE),
   (⟨"after".data, false, ["email".data, "mail".data]⟩, some .EMAIL),
   (⟨"after".data, false, ["jira".data, "ticket".data, "issue".data]⟩, some .JIRA_UPDATE),
   (⟨"once".data, true, ["deploy".data, "release".data, "ship".data]⟩, some .DEPLOY),
   (⟨"when".data, true, ["deploy".data, "release".data, "done".data]⟩, some .DEPLOY),
   (⟨"depends".data, false, ["on".data]⟩, none),
   (⟨"blocked".data, false, ["by".data]⟩, none),
   (⟨"waiting".data, false, ["for".data]⟩, none),
   (⟨"after".data, false, ["completing".data]⟩, none),
   (⟨"then".data, false, [[]]⟩, none)]

/-- Word characters of the regex class backslash-w (ASCII model). -/
def isWordChar (c : Char) : Bool :=
  c.isAlphanum || c = '_'

/-- Maximal word-character runs of a text; the accumulator holds the
current run reversed. -/
def wordRunsAux : List Char → List Char → List (List Char)
  | cur, [] => if cur.isEmpty then [] else [cur.reverse]
  | cur, c :: cs =>
    if isWordChar c then wordRunsAux (c :: cur) cs
    else if cur.isEmpty then wordRunsAux [] cs
    else cur.reverse :: wordRunsAux [] cs

/-- The distinct words of length at least 4 of a text: Python's
`set(re.findall(word-of-length-4-or-more, text))`. -/
def words4 (l : List Char) : List (List Char) :=
  ((wordRunsAux [] l).filter (fun w => 4 ≤ w.length)).eraseDups

/-- The stop words removed from the overlap in
`GraphService._find_keyword_dependencies`. -/
def STOP_WORDS : List (List Char) :=
  ["this".data, "that".data, "with".data, "from".data, "have".data,
   "been".data, "will".data, "would".data, "could".data, "should".data]

/-- Size of the stop-word-free intersection of the two word sets. -/
def commonCount (a b : List Char) : Nat :=
  (((words4 a).filter (fun w => (words4 b).contains w)).filter
    (fun w => !STOP_WORDS.contains w)).length

/-- The dependency-language keywords tested inside
`_find_keyword_dependencies`. -/
def DEP_HINTS : List String :=
  ["after", "once", "when", "depends", "blocked", "waiting"]

/-- Some dependency-language keyword occurs in the lowered text. -/
def hasDepHint (textLower : String) : Bool :=
  DEP_HINTS.any (fun k => pyContains k textLower)

/-- `GraphService._find_keyword_dependencies`: a "related" edge from
every other task sharing at least two significant words, provided the
current text carries dependency language. -/
def findKeywordDeps (task : Task) (allTasks : List Task) (textLower : String) :
    List GraphEdge :=
  (allTasks.filter (fun o => o.id != task.id)).filterMap (fun o =>
    if 2 ≤ commonCount textLower.data (pyLower o.clean_text).data then
      if hasDepHint textLower then
        some ⟨Nat.repr o.id, Nat.repr task.id, "related"⟩
      else none
    else none)

/-- Explicit-dependency stage of `build_graph`: one "depends" edge per
declared dependency id, directed dependency to dependent. -/
def explicitEdges (ts : List Task) : List GraphEdge :=
  ts.flatMap (fun t =>
    t.depends_on.map (fun d => ⟨Nat.repr d, Nat.repr t.id, "depends"⟩))

/-- Whether some task of the set carries the category (membership of the
category in the tasks-by-category grouping). -/
def catPresent (ts : List Task) (c : TaskCategory) : Bool :=
  ts.any (fun t => decide (t.category = c))

/-- "blocks" edges from every other task of the named category to the
current task. -/
def catDepEdges (ts : List Task) (t : Task) (c : TaskCategory) : List GraphEdge :=
  (ts.filter (fun d => decide (d.category = c))).filterMap (fun d =>
    if d.id != t.id then some ⟨Nat.repr d.id, Nat.repr t.id, "blocks"⟩ else none)

/-- Contribution of one pattern-table entry for one task. -/
def patEdges (ts : List Task) (t : Task) (textLower : String) :
    Pat × Option TaskCategory → List GraphEdge
  | (p, oc) =>
    if searchStr p textLower then
      match oc with
      | some c => if catPresent ts c then catDepEdges ts t c else []
      | none => findKeywordDeps t ts textLower
    else []

/-- Heuristic stage of `build_graph` for one task: skipped entirely when
the task has explicit dependencies; otherwise every pattern-table entry
is evaluated against the lowered text (the source loop has no break). -/
def heurEdgesForTask (ts : List Task) (t : Task) : List GraphEdge :=
  if t.depends_on.isEmpty then
    DEPENDENCY_PATTERNS.flatMap (patEdges ts t (pyLower t.clean_text))
  else []

/-- Heuristic stage of `build_graph` over the whole set. -/
def heurEdges (ts : List Task) : List GraphEdge :=
  ts.flatMap (heurEdgesForTask ts)

/-- The edge list of `build_graph` before deduplication: explicit edges
first, heuristic edges after. -/
def allEdges (ts : List Task) : List GraphEdge :=
  explicitEdges ts ++ heurEdges ts

/-- Deduplication stage of `build_graph`: first occurrence of each
(source, target) pair wins; `seen` is the set of pairs already kept. -/
def dedupEdges : List GraphEdge → List (String × String) → List GraphEdge
  | [], _ => []
  | e :: es, seen =>
    if (e.source, e.target) ∈ seen then dedupEdges es seen
    else e :: dedupEdges es ((e.source, e.target) :: seen)

/-- Two-digit zero padding, `strftime` style. -/
def fmtPad2 (n : Nat) : String :=
  if n < 10 then "0" ++ Nat.repr n else Nat.repr n

/-- `datetime.strftime` with format hour(12h):minute AM/PM, applied to a
time given in minutes since midnight. -/
def fmtClock (m : Nat) : String :=
  let h := m / 60 % 24
  let mi := m % 60
  let h12 := if h % 12 = 0 then 12 else h % 12
  fmtPad2 h12 ++ ":" ++ fmtPad2 mi ++ " " ++ (if h < 12 then "AM" else "PM")

/-- Python truthiness of an optional string: None and "" are falsy. -/
def optFalsy : Option String → Bool
  | none => true
  | some s => s == ""

/-- First n characters of a string (Python slicing). -/
def takeChars (n : Nat) (s : String) : String :=
  ⟨s.data.take n⟩

/-- Node construction of `build_graph`: time extracted from text, with
the scheduled time as fallback for reminders; label truncated at 50
characters with an ellipsis marker. -/
def mkNode (extractTime : String → Option String) (t : Task) : GraphNode :=
  let ts0 := extractTime t.clean_text
  let timeStr :=
    if decide (t.category = .REMINDER) && optFalsy ts0 && t.due_at.isSome then
      t.due_at.map fmtClock
    else ts0
  ⟨Nat.repr t.id,
   takeChars 50 t.clean_text ++ (if 50 < t.clean_text.length then "..." else ""),
   t.category, timeStr, t.depends_on.map Nat.repr, t.raw_text,
   t.original_message, t.was_improved.getD false⟩

/-- `GraphService.build_graph`.  The clock-time extraction regexes of
`TaskClassifier.extract_time` are the opaque parameter `extractTime`;
everything else is concrete. -/
def build_graph (extractTime : String → Option String) (ts : List Task) :
    GraphResponse :=
  ⟨ts.map (mkNode extractTime), dedupEdges (allEdges ts) []⟩

/-- The predicate of the first-occurrence lemma: same (source, target). -/
def samePair (e : GraphEdge) : GraphEdge → Bool :=
  fun y => (y.source == e.source) && (y.target == e.target)

/-- Every whitespace character of the list is a single plain space: no
two adjacent whitespace characters, every whitespace character is ' '. -/
def wsOk : List Char → Bool
  | [] => true
  | [c] => !isPySpace c || c = ' '
  | c₁ :: c₂ :: rest =>
    (!isPySpace c₁ || c₁ = ' ') && !(isPySpace c₁ && isPySpace c₂) && wsOk (c₂ :: rest)

/-- The first character, when present, is not a decoration character. -/
def headNonStrip (m : List Char) : Bool :=
  match m.head? with
  | none => true
  | some c => !isStripChar c

/-- The last character, when present, is not a decoration character. -/
def lastNonStrip : List Char → Bool
  | [] => true
  | [c] => !isStripChar c
  | _ :: c₂ :: rest => lastNonStrip (c₂ :: rest)

/-- Hypothesis of the amended idempotence claim: the cleaned text does
not start with a digit or a decoration character. -/
def headOkClean : List Char → Bool
  | [] => true
  | c :: _ => !(c.isDigit || isStripChar c)

/-! Concrete fixtures used by counterexample and witness theorems. -/

/-- A time extractor finding nothing (the three clock regexes reject). -/
def noTime : String → Option String := fun _ => none

/-- Validator oracles on which every opaque regex rejects. -/
def oracleFalse : ReOracles :=
  ⟨fun _ => false, fun _ => false, fun _ => false, fun _ => false, fun _ => false⟩

/-- A task whose text matches two category patterns of the table. -/
def taskA : Task := ⟨1, "x after deploy after email", "", none, .OTHER, [], none, none⟩

/-- A deploy-category task. -/
def taskB : Task := ⟨2, "deploy service", "", none, .DEPLOY, [], none, none⟩

/-- An email-category task. -/
def taskC : Task := ⟨3, "send email", "", none, .EMAIL, [], none, none⟩

/-- A task that declares itself as its own explicit dependency. -/
def selfTask : Task := ⟨1, "fix the login bug", "", none, .OTHER, [1], none, none⟩

/-- A task whose only declared dependency id (2) is absent from the set. -/
def danglingTask : Task := ⟨1, "write the summary", "", none, .OTHER, [2], none, none⟩

/-- A task whose text matches the generic depends-on pattern and shares
two significant words (payment, gateway) with taskH. -/
def taskG : Task :=
  ⟨8, "deploy script depends on payment gateway", "", none, .OTHER, [], none, none⟩

/-- The overlap partner of taskG. -/
def taskH : Task :=
  ⟨9, "update payment gateway configuration", "", none, .OTHER, [], none, none⟩

/-- The deploy task of the explicit-dependency scenario. -/
def task5 : Task := ⟨5, "deploy the payment service", "", none, .DEPLOY, [], none, none⟩

/-- A task with explicit dependency list [5] whose text also matches a
generic dependency pattern. -/
def task7 : Task :=
  ⟨7, "message the team after deploy completes", "", none, .MESSAGE, [5], none, none⟩

/-! Injectivity of the decimal rendering used for node and edge ids. -/

theorem toDigitsCore_acc (n : Nat) : ∀ fuel acc, n < fuel →
    Nat.toDigitsCore 10 fuel n acc = Nat.toDigits 10 n ++ acc := by
  induction n using Nat.strong_induction_on with
  | _ n ih =>
    intro fuel acc hfuel
    cases fuel with
    | zero => omega
    | succ f =>
      by_cases hz : n / 10 = 0
      · simp only [Nat.toDigitsCore, hz, if_pos, Nat.toDigits]
        simp
      · have hn10 : 10 ≤ n := by
          rcases Nat.lt_or_ge n 10 with h | h
          · exact absurd (Nat.div_eq_of_lt h) hz
          · exact h
        have hlt : n / 10 < n := Nat.div_lt_self (by omega) (by omega)
        simp only [Nat.toDigitsCore, hz, if_neg, Nat.toDigits]
        rw [ih (n / 10) hlt f _ (by omega), ih (n / 10) hlt n _ (by omega)]
        simp

theorem toDigits_of_lt {n : Nat} (h : n < 10) :
    Nat.toDigits 10 n = [Nat.digitChar n] := by
  simp only [Nat.toDigits, Nat.toDigitsCore, Nat.div_eq_of_lt h, if_pos,
    Nat.mod_eq_of_lt h]

theorem toDigits_of_ge {n : Nat} (h : 10 ≤ n) :
    Nat.toDigits 10 n = Nat.toDigits 10 (n / 10) ++ [Nat.digitChar (n % 10)] := by
  have hz : n / 10 ≠ 0 := by
    intro h0
    have := (Nat.div_eq_zero_iff (by omega : 0 < 10)).mp h0
    omega
  have hlt : n / 10 < n := Nat.div_lt_self (by omega) (by omega)
  conv_lhs => rw [Nat.toDigits]
  simp only [Nat.toDigitsCore]
  rw [if_neg hz, toDigitsCore_acc (n / 10) n _ (by omega)]

theorem toDigits_ne_nil (n : Nat) : Nat.toDigits 10 n ≠ [] := by
  rcases Nat.lt_or_ge n 10 with h | h
  · rw [toDigits_of_lt h]; simp
  · rw [toDigits_of_ge h]; simp

theorem digitChar_inj : ∀ a, a < 10 → ∀ b, b < 10 →
    Nat.digitChar a = Nat.digitChar b → a = b := by decide

theorem toDigits_inj : ∀ a b : Nat,
    Nat.toDigits 10 a = Nat.toDigits 10 b → a = b := by
  intro a
  induction a using Nat.strong_induction_on with
  | _ a ih =>
    intro b h
    rcases Nat.lt_or_ge a 10 with ha | ha <;> rcases Nat.lt_or_ge b 10 with hb | hb
    · rw [toDigits_of_lt ha, toDigits_of_lt hb] at h
      exact digitChar_inj a ha b hb (List.singleton_inj.mp h)
    · rw [toDigits_of_lt ha, toDigits_of_ge hb] at h
      have := congrArg List.length h
      simp at this
      exact absurd this (toDigits_ne_nil (b / 10))
    · rw [toDigits_of_ge ha, toDigits_of_lt hb] at h
      have := congrArg List.length h
      simp at this
      exact absurd this (toDigits_ne_nil (a / 10))
    · rw [toDigits_of_ge ha, toDigits_of_ge hb] at h
      have hsp := List.append_inj' h (by simp)
      have h1 : a / 10 = b / 10 :=
        ih (a / 10) (Nat.div_lt_self (by omega) (by omega)) (b / 10) hsp.1
      have h2 : a % 10 = b % 10 :=
        digitChar_inj _ (Nat.mod_lt a (by omega)) _ (Nat.mod_lt b (by omega))
          (List.singleton_inj.mp hsp.2)
      omega

theorem repr_inj {a b : Nat} (h : Nat.repr a = Nat.repr b) : a = b := by
  apply toDigits_inj
  have := congrArg String.data h
  simpa [Nat.repr, List.asString] using this

/-! Properties of the deduplication stage. -/

theorem dedup_subset {l : List GraphEdge} {seen : List (String × String)}
    {e : GraphEdge} (h : e ∈ dedupEdges l seen) : e ∈ l := by
  induction l generalizing seen with
  | nil => simpa [dedupEdges] using h
  | cons x xs ih =>
    by_cases hx : (x.source, x.target) ∈ seen
    · simp only [dedupEdges, if_pos hx] at h
      exact List.mem_cons_of_mem _ (ih h)
    · simp only [dedupEdges, if_neg hx] at h
      rcases List.mem_cons.mp h with h | h
      · exact h ▸ List.mem_cons_self x xs
      · exact List.mem_cons_of_mem _ (ih h)

theorem dedup_pair_not_seen {l : List GraphEdge} {seen : List (String × String)}
    {e : GraphEdge} (h : e ∈ dedupEdges l seen) : (e.source, e.target) ∉ seen := by
  induction l generalizing seen with
  | nil => simp [dedupEdges] at h
  | cons x xs ih =>
    by_cases hx : (x.source, x.target) ∈ seen
    · simp only [dedupEdges, if_pos hx] at h
      exact ih h
    · simp only [dedupEdges, if_neg hx] at h
      rcases List.mem_cons.mp h with h | h
      · exact h ▸ hx
      · intro hs
        exact ih h (List.mem_cons_of_mem _ hs)

theorem dedup_pairwise (l : List GraphEdge) (seen : List (String × String)) :
    List.Pairwise (fun a b : GraphEdge =>
      (a.source, a.target) ≠ (b.source, b.target)) (dedupEdges l seen) := by
  induction l generalizing seen with
  | nil => simp [dedupEdges]
  | cons x xs ih =>
    by_cases hx : (x.source, x.target) ∈ seen
    · simpa only [dedupEdges, if_pos hx] using ih seen
    · simp only [dedupEdges, if_neg hx]
      refine List.Pairwise.cons ?_ (ih _)
      intro b hb heq
      exact dedup_pair_not_seen hb (heq ▸ List.mem_cons_self _ _)

theorem dedup_find {l : List GraphEdge} {seen : List (String × String)}
    {e : GraphEdge} (h : e ∈ dedupEdges l seen) :
    l.find? (samePair e) = some e := by
  induction l generalizing seen with
  | nil => simp [dedupEdges] at h
  | cons x xs ih =>
    by_cases hx : (x.source, x.target) ∈ seen
    · simp only [dedupEdges, if_pos hx] at h
      have hne : (e.source, e.target) ≠ (x.source, x.target) := by
        intro heq
        exact dedup_pair_not_seen h (heq ▸ hx)
      have hpx : ¬ samePair e x = true := by
        simp only [samePair, Bool.and_eq_true, beq_iff_eq]
        intro hc
        exact hne (by simp [hc.1, hc.2])
      rw [List.find?_cons_of_neg _ hpx]
      exact ih h
    · simp only [dedupEdges, if_neg hx] at h
      rcases List.mem_cons.mp h with rfl | h
      · exact List.find?_cons_of_pos _ (by simp [samePair])
      · have hns := dedup_pair_not_seen h
        have hne : (e.source, e.target) ≠ (x.source, x.target) := by
          intro heq
          exact hns (heq ▸ List.mem_cons_self _ _)
        have hpx : ¬ samePair e x = true := by
          simp only [samePair, Bool.and_eq_true, beq_iff_eq]
          intro hc
          exact hne (by simp [hc.1, hc.2])
        rw [List.find?_cons_of_neg _ hpx]
        exact ih h

theorem dedup_pair_mem {l : List GraphEdge} {seen : List (String × String)}
    {e : GraphEdge} (h : e ∈ l) (hs : (e.source, e.target) ∉ seen) :
    ∃ e' ∈ dedupEdges l seen, e'.source = e.source ∧ e'.target = e.target := by
  induction l generalizing seen with
  | nil => simp at h
  | cons x xs ih =>
    by_cases hx : (x.source, x.target) ∈ seen
    · simp only [dedupEdges, if_pos hx]
      rcases List.mem_cons.mp h with rfl | h
      · exact absurd hx hs
      · exact ih h hs
    · simp only [dedupEdges, if_neg hx]
      by_cases hpx : (e.source, e.target) = (x.source, x.target)
      · refine ⟨x, List.mem_cons_self _ _, ?_, ?_⟩
        · exact (congrArg Prod.fst hpx).symm
        · exact (congrArg Prod.snd hpx).symm
      · rcases List.mem_cons.mp h with rfl | h
        · exact absurd rfl hpx
        · obtain ⟨e', he', hs', ht'⟩ := ih h (by
            intro hmem
            rcases List.mem_cons.mp hmem with hc | hc
            · exact hpx hc
            · exact hs hc)
          exact ⟨e', List.mem_cons_of_mem _ he', hs', ht'⟩

/-! Shapes of the edges produced by each stage. -/

theorem mem_explicitEdges {ts : List Task} {e : GraphEdge} :
    e ∈ explicitEdges ts ↔ ∃ t ∈ ts, ∃ d ∈ t.depends_on,
      e = ⟨Nat.repr d, Nat.repr t.id, "depends"⟩ := by
  simp only [explicitEdges, List.mem_flatMap, List.mem_map]
  constructor
  · rintro ⟨t, ht, d, hd, rfl⟩
    exact ⟨t, ht, d, hd, rfl⟩
  · rintro ⟨t, ht, d, hd, rfl⟩
    exact ⟨t, ht, d, hd, rfl⟩

theorem mem_catDepEdges {ts : List Task} {t : Task} {c : TaskCategory}
    {e : GraphEdge} (h : e ∈ catDepEdges ts t c) :
    ∃ d ∈ ts, d.category = c ∧ d.id ≠ t.id ∧
      e = ⟨Nat.repr d.id, Nat.repr t.id, "blocks"⟩ := by
  simp only [catDepEdges, List.mem_filterMap, List.mem_filter,
    decide_eq_true_eq] at h
  obtain ⟨d, ⟨hd, hc⟩, hsome⟩ := h
  by_cases hne : d.id != t.id
  · rw [if_pos hne] at hsome
    exact ⟨d, hd, hc, bne_iff_ne.mp hne, (Option.some_inj.mp hsome).symm⟩
  · rw [if_neg hne] at hsome
    exact absurd hsome (by simp)

theorem catDepEdges_mem {ts : List Task} {t d : Task} {c : TaskCategory}
    (hd : d ∈ ts) (hcat : d.category = c) (hne : d.id ≠ t.id) :
    (⟨Nat.repr d.id, Nat.repr t.id, "blocks"⟩ : GraphEdge) ∈ catDepEdges ts t c := by
  simp only [catDepEdges, List.mem_filterMap, List.mem_filter, decide_eq_true_eq]
  refine ⟨d, ⟨hd, hcat⟩, ?_⟩
  rw [if_pos (bne_iff_ne.mpr hne)]

theorem findKeywordDeps_mem {t : Task} {ts : List Task} {tl : String} {o : Task}
    (ho : o ∈ ts) (hne : o.id ≠ t.id)
    (hcc : 2 ≤ commonCount tl.data (pyLower o.clean_text).data)
    (hh : hasDepHint tl = true) :
    (⟨Nat.repr o.id, Nat.repr t.id, "related"⟩ : GraphEdge) ∈ findKeywordDeps t ts tl := by
  simp only [findKeywordDeps, List.mem_filterMap, List.mem_filter]
  refine ⟨o, ⟨ho, bne_iff_ne.mpr hne⟩, ?_⟩
  rw [if_pos hcc, if_pos hh]

theorem mem_findKeywordDeps {t : Task} {ts : List Task} {tl : String}
    {e : GraphEdge} (h : e ∈ findKeywordDeps t ts tl) :
    ∃ o ∈ ts, o.id ≠ t.id ∧ e = ⟨Nat.repr o.id, Nat.repr t.id, "related"⟩ := by
  simp only [findKeywordDeps, List.mem_filterMap, List.mem_filter] at h
  obtain ⟨o, ⟨ho, hne⟩, hsome⟩ := h
  refine ⟨o, ho, bne_iff_ne.mp hne, ?_⟩
  by_cases h2 : 2 ≤ commonCount tl.data (pyLower o.clean_text).data
  · rw [if_pos h2] at hsome
    by_cases hh : hasDepHint tl = true
    · rw [if_pos hh] at hsome
      exact (Option.some_inj.mp hsome).symm
    · rw [if_neg hh] at hsome
      exact absurd hsome (by simp)
  · rw [if_neg h2] at hsome
    exact absurd hsome (by simp)

theorem heur_shape {ts : List Task} {t : Task} {e : GraphEdge}
    (h : e ∈ heurEdgesForTask ts t) :
    t.depends_on = [] ∧ e.target = Nat.repr t.id ∧ e.source ≠ e.target := by
  by_cases hdep : t.depends_on.isEmpty
  · simp only [heurEdgesForTask, if_pos hdep, List.mem_flatMap] at h
    obtain ⟨entry, _, he⟩ := h
    refine ⟨List.isEmpty_iff.mp hdep, ?_⟩
    rcases entry with ⟨p, oc⟩
    cases oc with
    | some c =>
      by_cases hsearch : searchStr p (pyLower t.clean_text) = true
      · simp only [patEdges, if_pos hsearch] at he
        by_cases hpres : catPresent ts c = true
        · rw [if_pos hpres] at he
          obtain ⟨d, _, _, hne, rfl⟩ := mem_catDepEdges he
          exact ⟨rfl, fun hc => hne (repr_inj hc)⟩
        · rw [if_neg hpres] at he
          simp at he
      · simp only [patEdges, if_neg hsearch] at he
        simp at he
    | none =>
      by_cases hsearch : searchStr p (pyLower t.clean_text) = true
      · simp only [patEdges, if_pos hsearch] at he
        obtain ⟨o, _, hne, rfl⟩ := mem_findKeywordDeps he
        exact ⟨rfl, fun hc => hne (repr_inj hc)⟩
      · simp only [patEdges, if_neg hsearch] at he
        simp at he
  · simp only [heurEdgesForTask, if_neg hdep] at h
    simp at h

theorem mem_heurEdges {ts : List Task} {e : GraphEdge} (h : e ∈ heurEdges ts) :
    ∃ t ∈ ts, e ∈ heurEdgesForTask ts t := by
  simpa only [heurEdges, List.mem_flatMap] using h

theorem heurEdges_mem_of {ts : List Task} {t : Task} {e : GraphEdge}
    (ht : t ∈ ts) (he : e ∈ heurEdgesForTask ts t) : e ∈ heurEdges ts := by
  simp only [heurEdges, List.mem_flatMap]
  exact ⟨t, ht, he⟩

/-- The explicit edge of a declared dependency survives deduplication as
the kept edge for its (source, target) pair, labeled "depends". -/
theorem explicit_edge_in_output (et : String → Option String) {ts : List Task}
    {t : Task} {d : Nat} (ht : t ∈ ts) (hd : d ∈ t.depends_on) :
    ∃ e ∈ (build_graph et ts).edges,
      e.source = Nat.repr d ∧ e.target = Nat.repr t.id ∧ e.label = "depends" := by
  have hx : (⟨Nat.repr d, Nat.repr t.id, "depends"⟩ : GraphEdge) ∈ allEdges ts := by
    apply List.mem_append_left
    exact mem_explicitEdges.mpr ⟨t, ht, d, hd, rfl⟩
  obtain ⟨e, he, hs, htg⟩ := @dedup_pair_mem (allEdges ts) [] _ hx (by simp)
  refine ⟨e, he, hs, htg, ?_⟩
  have hfind := dedup_find he
  have hpred : samePair e (⟨Nat.repr d, Nat.repr t.id, "depends"⟩ : GraphEdge) = true := by
    simp [samePair, hs, htg]
  have hex : (List.find? (samePair e) (explicitEdges ts)).isSome = true :=
    List.find?_isSome.mpr ⟨_, mem_explicitEdges.mpr ⟨t, ht, d, hd, rfl⟩, hpred⟩
  have hsplit : (allEdges ts).find? (samePair e) =
      (explicitEdges ts).find? (samePair e) := by
    rw [allEdges, List.find?_append]
    obtain ⟨a, ha⟩ := Option.isSome_iff_exists.mp hex
    rw [ha]
    rfl
  have : (explicitEdges ts).find? (samePair e) = some e := by
    rw [← hsplit]
    exact hfind
  have hmem := List.mem_of_find?_eq_some this
  obtain ⟨t', _, d', _, rfl⟩ := mem_explicitEdges.mp hmem
  rfl

/-! Claim theorems about the graph builder. -/

/-- C1, counterexample: the claim says only the first matching pattern of
DEPENDENCY_PATTERNS is acted upon per task.  On this input the first
matching pattern for task 1 is the after-deploy pattern (table position 0),
which alone yields only the edge 2 to 1; yet the output also contains the
edge 3 to 1, produced by the later after-email pattern (table position 2),
because the source loop has no break.  Later matching patterns do
contribute additional edges, refuting the claim. -/
theorem c1_counterexample :
    searchStr ⟨"after".data, false, ["deploy".data, "release".data, "ship".data]⟩
        (pyLower taskA.clean_text) = true ∧
    searchStr ⟨"after".data, false, ["email".data, "mail".data]⟩
        (pyLower taskA.clean_text) = true ∧
    (build_graph noTime [taskA, taskB, taskC]).edges =
      [⟨"2", "1", "blocks"⟩, ⟨"3", "1", "blocks"⟩] :=
  ⟨rfl, rfl, rfl⟩

/-- C1, amended: in the heuristic stage every pattern of the table that
matches the lowered clean text of a task with no explicit dependencies is
acted upon — patterns accumulate, only exact (source, target) duplicates
being collapsed by the final deduplication.  For a matching category
pattern, every other task of that category contributes an edge to the
output; for a matching generic (category-free) pattern, lexical-overlap
inference runs and every other task sharing at least two significant
words (when the text carries dependency language) contributes an edge. -/
theorem c1_amended (et : String → Option String) (ts : List Task) (t : Task)
    (ht : t ∈ ts) (hdep : t.depends_on = []) (p : Pat)
    (hs : searchStr p (pyLower t.clean_text) = true) :
    (∀ c : TaskCategory, (p, some c) ∈ DEPENDENCY_PATTERNS →
      ∀ d ∈ ts, d.category = c → d.id ≠ t.id →
        ∃ e ∈ (build_graph et ts).edges,
          e.source = Nat.repr d.id ∧ e.target = Nat.repr t.id) ∧
    ((p, none) ∈ DEPENDENCY_PATTERNS →
      ∀ o ∈ ts, o.id ≠ t.id →
        2 ≤ commonCount (pyLower t.clean_text).data (pyLower o.clean_text).data →
        hasDepHint (pyLower t.clean_text) = true →
        ∃ e ∈ (build_graph et ts).edges,
          e.source = Nat.repr o.id ∧ e.target = Nat.repr t.id) := by
  constructor
  · intro c hp d hd hc hne
    have hedge : (⟨Nat.repr d.id, Nat.repr t.id, "blocks"⟩ : GraphEdge)
        ∈ heurEdgesForTask ts t := by
      simp only [heurEdgesForTask, hdep, List.isEmpty_nil, if_true, List.mem_flatMap]
      refine ⟨(p, some c), hp, ?_⟩
      simp only [patEdges, if_pos hs]
      have hpres : catPresent ts c = true := by
        simp only [catPresent, List.any_eq_true, decide_eq_true_eq]
        exact ⟨d, hd, hc⟩
      rw [if_pos hpres]
      exact catDepEdges_mem hd hc hne
    have hall : (⟨Nat.repr d.id, Nat.repr t.id, "blocks"⟩ : GraphEdge) ∈ allEdges ts :=
      List.mem_append_right _ (heurEdges_mem_of ht hedge)
    obtain ⟨e, he, hs', ht'⟩ := @dedup_pair_mem (allEdges ts) [] _ hall (by simp)
    exact ⟨e, he, hs', ht'⟩
  · intro hp o ho hne hcc hh
    have hedge : (⟨Nat.repr o.id, Nat.repr t.id, "related"⟩ : GraphEdge)
        ∈ heurEdgesForTask ts t := by
      simp only [heurEdgesForTask, hdep, List.isEmpty_nil, if_true, List.mem_flatMap]
      refine ⟨(p, none), hp, ?_⟩
      simp only [patEdges, if_pos hs]
      exact findKeywordDeps_mem ho hne hcc hh
    have hall : (⟨Nat.repr o.id, Nat.repr t.id, "related"⟩ : GraphEdge) ∈ allEdges ts :=
      List.mem_append_right _ (heurEdges_mem_of ht hedge)
    obtain ⟨e, he, hs', ht'⟩ := @dedup_pair_mem (allEdges ts) [] _ hall (by simp)
    exact ⟨e, he, hs', ht'⟩

/-- C1, witness: the amended theorem applied on both branches — the later
matching category pattern (after-email, table position 2) on the
counterexample input, and a generic pattern (depends-on, table position 6)
whose lexical-overlap inference links taskH to taskG. -/
theorem c1_witness :
    (∃ e ∈ (build_graph noTime [taskA, taskB, taskC]).edges,
        e.source = Nat.repr taskC.id ∧ e.target = Nat.repr taskA.id) ∧
    (∃ e ∈ (build_graph noTime [taskG, taskH]).edges,
        e.source = Nat.repr taskH.id ∧ e.target = Nat.repr taskG.id) :=
  ⟨(c1_amended noTime [taskA, taskB, taskC] taskA (by decide) rfl
      ⟨"after".data, false, ["email".data, "mail".data]⟩ rfl).1 .EMAIL
      (by decide) taskC (by decide) rfl (by decide),
    (c1_amended noTime [taskG, taskH] taskG (by decide) rfl
      ⟨"depends".data, false, ["on".data]⟩ rfl).2 (by decide) taskH
      (by decide) (by decide) (by decide) (by decide)⟩

/-- C2, counterexample: the only task declares dependency id 2, which no
task of the set carries; the claim says no edge is emitted for the
dangling id, yet build_graph emits the edge 2 to 1. -/
theorem c2_counterexample :
    (∀ t ∈ [danglingTask], ∀ d ∈ t.depends_on, ∀ t' ∈ [danglingTask], t'.id ≠ d) ∧
    (build_graph noTime [danglingTask]).edges = [⟨"2", "1", "depends"⟩] :=
  ⟨by decide, rfl⟩

/-- C2, amended: a dependency id absent from the supplied set still
produces its "depends" edge — the explicit stage copies every declared
id without a membership check, so the edge dangles (its source matches
no node id) — and build_graph succeeds on the rest of the input. -/
theorem c2_amended (et : String → Option String) (ts : List Task) (t : Task)
    (d : Nat) (ht : t ∈ ts) (hd : d ∈ t.depends_on)
    (hdangling : ∀ t' ∈ ts, t'.id ≠ d) :
    (∃ e ∈ (build_graph et ts).edges,
        e.source = Nat.repr d ∧ e.target = Nat.repr t.id ∧ e.label = "depends") ∧
    (∀ n ∈ (build_graph et ts).nodes, n.id ≠ Nat.repr d) := by
  refine ⟨explicit_edge_in_output et ht hd, ?_⟩
  intro n hn
  have hn' : n ∈ ts.map (mkNode et) := hn
  obtain ⟨t', ht', rfl⟩ := List.mem_map.mp hn'
  intro hc
  exact hdangling t' ht' (repr_inj hc)

/-- C2, witness: the amended theorem applied to the dangling-id input. -/
theorem c2_witness :
    ((danglingTask ∈ [danglingTask]) ∧ (2 ∈ danglingTask.depends_on) ∧
      ∀ t' ∈ [danglingTask], t'.id ≠ 2) ∧
    ((∃ e ∈ (build_graph noTime [danglingTask]).edges,
        e.source = Nat.repr 2 ∧ e.target = Nat.repr danglingTask.id ∧
          e.label = "depends") ∧
      (∀ n ∈ (build_graph noTime [danglingTask]).nodes, n.id ≠ Nat.repr 2)) :=
  ⟨⟨by decide, by decide, by decide⟩,
    c2_amended noTime [danglingTask] danglingTask 2 (by decide) (by decide)
      (by decide)⟩

/-- C3, counterexample: a task whose explicit-dependency list contains
its own id makes build_graph emit the self-loop edge 1 to 1 — the
explicit stage has no self-reference filter, refuting the claim that no
self-loop is ever emitted. -/
theorem c3_counterexample :
    selfTask.depends_on = [selfTask.id] ∧
    (build_graph noTime [selfTask]).edges = [⟨"1", "1", "depends"⟩] ∧
    ((build_graph noTime [selfTask]).edges.any fun e => e.source == e.target) = true :=
  ⟨rfl, rfl, rfl⟩

/-- C3, amended: heuristic edges are never self-loops (both heuristic
stages filter on task ids), and whenever no task's explicit-dependency
list contains the task's own id, no edge of the output is a self-loop.
Only a task declaring itself as a dependency can produce one. -/
theorem c3_amended (et : String → Option String) (ts : List Task)
    (hself : ∀ t ∈ ts, t.id ∉ t.depends_on) :
    ∀ e ∈ (build_graph et ts).edges, e.source ≠ e.target := by
  intro e he
  have hall := dedup_subset (show e ∈ dedupEdges (allEdges ts) [] from he)
  rcases List.mem_append.mp hall with hex | hheur
  · obtain ⟨t, ht, dd, hdd, rfl⟩ := mem_explicitEdges.mp hex
    intro hc
    have : dd = t.id := repr_inj hc
    exact hself t ht (this ▸ hdd)
  · obtain ⟨t, ht, hft⟩ := mem_heurEdges hheur
    exact (heur_shape hft).2.2

/-- C3, witness: the amended theorem applied to a set with no explicit
self-references. -/
theorem c3_witness :
    (∀ t ∈ [taskA, taskB, taskC], t.id ∉ t.depends_on) ∧
    ∀ e ∈ (build_graph noTime [taskA, taskB, taskC]).edges,
      e.source ≠ e.target :=
  ⟨by decide, c3_amended noTime [taskA, taskB, taskC] (by decide)⟩

/-- C5: the final edge list contains no two edges with the same
(source, target) pair; every kept edge is the first edge with its pair
in generation order, and since explicit edges are generated before
heuristic ones, a pair produced by an explicit edge keeps the "depends"
label. -/
theorem c5_no_duplicate_pairs (et : String → Option String) (ts : List Task) :
    List.Pairwise (fun a b : GraphEdge =>
        (a.source, a.target) ≠ (b.source, b.target)) (build_graph et ts).edges ∧
    ∀ e ∈ (build_graph et ts).edges,
      (allEdges ts).find? (samePair e) = some e ∧
      ((∃ e' ∈ explicitEdges ts, e'.source = e.source ∧ e'.target = e.target) →
        e.label = "depends") := by
  constructor
  · exact dedup_pairwise _ _
  · intro e he
    have hfind := dedup_find (show e ∈ dedupEdges (allEdges ts) [] from he)
    refine ⟨hfind, ?_⟩
    rintro ⟨e', he', hs, ht⟩
    have hpred : samePair e e' = true := by simp [samePair, hs, ht]
    have hex : ((explicitEdges ts).find? (samePair e)).isSome = true :=
      List.find?_isSome.mpr ⟨e', he', hpred⟩
    have hsplit : (allEdges ts).find? (samePair e) =
        (explicitEdges ts).find? (samePair e) := by
      rw [allEdges, List.find?_append]
      obtain ⟨a, ha⟩ := Option.isSome_iff_exists.mp hex
      rw [ha]
      rfl
    have hfe : (explicitEdges ts).find? (samePair e) = some e := by
      rw [← hsplit]
      exact hfind
    obtain ⟨t, _, dd, _, rfl⟩ := mem_explicitEdges.mp (List.mem_of_find?_eq_some hfe)
    rfl

/-- C6: a task with a non-empty explicit-dependency list receives one
"depends" edge per dependency id (dependency to dependent) and no
heuristic edge targets it — heuristic inference is skipped entirely for
it — and each (source, target) pair occurs at most once. -/
theorem c6_explicit_skips_heuristics (et : String → Option String)
    (ts : List Task) (t : Task) (ht : t ∈ ts) (hne : t.depends_on ≠ [])
    (hnd : (ts.map Task.id).Nodup) :
    (∀ d ∈ t.depends_on, ∃ e ∈ (build_graph et ts).edges,
        e.source = Nat.repr d ∧ e.target = Nat.repr t.id ∧ e.label = "depends") ∧
    (∀ e ∈ (build_graph et ts).edges, e.target = Nat.repr t.id →
        e.label = "depends" ∧ ∃ d ∈ t.depends_on, e.source = Nat.repr d) ∧
    (∀ e₁ ∈ (build_graph et ts).edges, ∀ e₂ ∈ (build_graph et ts).edges,
        e₁.source = e₂.source → e₁.target = e₂.target → e₁ = e₂) := by
  refine ⟨?_, ?_, ?_⟩
  · intro d hd
    exact explicit_edge_in_output et ht hd
  · intro e he htg
    have hall := dedup_subset (show e ∈ dedupEdges (allEdges ts) [] from he)
    rcases List.mem_append.mp hall with hex | hheur
    · obtain ⟨t', ht', d', hd', rfl⟩ := mem_explicitEdges.mp hex
      have : t' = t := List.inj_on_of_nodup_map hnd ht' ht (repr_inj htg)
      subst this
      exact ⟨rfl, d', hd', rfl⟩
    · obtain ⟨t', ht', hft⟩ := mem_heurEdges hheur
      obtain ⟨hdep', htg', _⟩ := heur_shape hft
      have : t' = t :=
        List.inj_on_of_nodup_map hnd ht' ht (repr_inj (htg'.symm.trans htg))
      subst this
      exact absurd hdep' hne
  · intro e₁ h₁ e₂ h₂ hs ht'
    by_contra hne'
    have hsym : Symmetric (fun a b : GraphEdge =>
        (a.source, a.target) ≠ (b.source, b.target)) :=
      fun a b h hc => h hc.symm
    have hp := List.Pairwise.forall hsym
      (dedup_pairwise (allEdges ts) [])
      (show e₁ ∈ dedupEdges (allEdges ts) [] from h₁)
      (show e₂ ∈ dedupEdges (allEdges ts) [] from h₂) hne'
    exact hp (by rw [hs, ht'])

/-- C6, witness: the spec scenario — dependency list [5] with task id 5
present yields exactly the edge 5 to 7 labeled "depends" and no
heuristic edge for task 7, although its text matches the after-deploy
pattern. -/
theorem c6_witness :
    ((task7 ∈ [task5, task7]) ∧ task7.depends_on ≠ [] ∧
      (([task5, task7].map Task.id).Nodup)) ∧
    ((∀ d ∈ task7.depends_on, ∃ e ∈ (build_graph noTime [task5, task7]).edges,
        e.source = Nat.repr d ∧ e.target = Nat.repr task7.id ∧
          e.label = "depends") ∧
      (∀ e ∈ (build_graph noTime [task5, task7]).edges,
        e.target = Nat.repr task7.id →
          e.label = "depends" ∧ ∃ d ∈ task7.depends_on, e.source = Nat.repr d) ∧
      (∀ e₁ ∈ (build_graph noTime [task5, task7]).edges,
        ∀ e₂ ∈ (build_graph noTime [task5, task7]).edges,
          e₁.source = e₂.source → e₁.target = e₂.target → e₁ = e₂)) :=
  ⟨⟨by decide, by decide, by decide⟩,
    c6_explicit_skips_heuristics noTime [task5, task7] task7
      (by decide) (by decide) (by decide)⟩

/-- C9: build_graph is deterministic — two invocations on equal inputs
produce identical node lists and identical edge lists (the embedding is
a pure function of the task set and the time-extraction primitive). -/
theorem c9_deterministic (et : String → Option String) (ts₁ ts₂ : List Task)
    (h : ts₁ = ts₂) :
    (build_graph et ts₁).nodes = (build_graph et ts₂).nodes ∧
    (build_graph et ts₁).edges = (build_graph et ts₂).edges := by
  subst h
  exact ⟨rfl, rfl⟩

/-- C9, witness: determinism at a concrete input. -/
theorem c9_witness :
    ([task5, task7] = [task5, task7]) ∧
    ((build_graph noTime [task5, task7]).nodes =
        (build_graph noTime [task5, task7]).nodes ∧
      (build_graph noTime [task5, task7]).edges =
        (build_graph noTime [task5, task7]).edges) :=
  ⟨rfl, c9_deterministic noTime [task5, task7] [task5, task7] rfl⟩

/-! Length and word-count behaviour of stripping, used by C8. -/

theorem length_dropWhile_le (p : Char → Bool) (l : List Char) :
    (l.dropWhile p).length ≤ l.length := by
  have hlen := congrArg List.length (List.takeWhile_append_dropWhile p l)
  simp only [List.length_append] at hlen
  omega

theorem length_stripWs_le (l : List Char) : (stripWs l).length ≤ l.length := by
  have h1 : (rstripWs (lstripWs l)).length ≤ (lstripWs l).length := by
    simp only [rstripWs, List.length_reverse]
    calc ((lstripWs l).reverse.dropWhile isPySpace).length
        ≤ (lstripWs l).reverse.length := length_dropWhile_le _ _
      _ = (lstripWs l).length := List.length_reverse _
  exact le_trans h1 (length_dropWhile_le _ _)

theorem wcAux_all_ws {r : List Char} (hr : ∀ c ∈ r, isPySpace c = true) :
    ∀ b, wcAux b r = 0 := by
  induction r with
  | nil => intro b; rfl
  | cons c cs ih =>
    intro b
    have hc := hr c (List.mem_cons_self _ _)
    simp only [wcAux, hc, if_true]
    exact ih (fun x hx => hr x (List.mem_cons_of_mem _ hx)) false

theorem wcAux_append_ws {r : List Char} (hr : ∀ c ∈ r, isPySpace c = true)
    (l : List Char) : ∀ b, wcAux b (l ++ r) = wcAux b l := by
  induction l with
  | nil =>
    intro b
    simpa [wcAux] using wcAux_all_ws hr b
  | cons c cs ih =>
    intro b
    rw [List.cons_append]
    by_cases hc : isPySpace c = true
    · simp [wcAux, hc, ih]
    · simp [wcAux, hc, ih]

theorem wcAux_dropWhile_ws (l : List Char) :
    wcAux false (l.dropWhile isPySpace) = wcAux false l := by
  induction l with
  | nil => rfl
  | cons c cs ih =>
    by_cases hc : isPySpace c = true
    · rw [List.dropWhile_cons, if_pos hc, ih]
      simp [wcAux, hc]
    · rw [List.dropWhile_cons, if_neg hc]

theorem rstrip_decomp (l : List Char) :
    ∃ r, l = rstripWs l ++ r ∧ ∀ c ∈ r, isPySpace c = true := by
  refine ⟨(l.reverse.takeWhile isPySpace).reverse, ?_, ?_⟩
  · conv_lhs => rw [← l.reverse_reverse,
      ← List.takeWhile_append_dropWhile isPySpace l.reverse]
    rw [List.reverse_append]
    rfl
  · intro c hc
    rw [List.mem_reverse] at hc
    exact List.mem_takeWhile_imp hc

theorem wc_rstrip (m : List Char) : wcAux false (rstripWs m) = wcAux false m := by
  obtain ⟨r, hm, hr⟩ := rstrip_decomp m
  conv_rhs => rw [hm]
  rw [wcAux_append_ws hr]

theorem pyWordCount_strip (s : String) : pyWordCount (pyStrip s) = pyWordCount s := by
  show wcAux false (stripWs s.data) = wcAux false s.data
  rw [stripWs, wc_rstrip, lstripWs, wcAux_dropWhile_ws]

/-! Claim theorems about the text validator and the classifier. -/

/-- C7: whenever the lowered text contains a JIRA keyword, the classifier
returns the issue-tracker category — in particular a text containing both
a JIRA keyword and a deploy keyword classifies as jira_update and never as
deploy, because the JIRA table is scanned first. -/
theorem c7_jira_beats_deploy (timeRe : String → Bool) (s : String)
    (hj : JIRA_KEYWORDS.any (fun k => pyContains k (pyLower s)) = true)
    (hd : DEPLOY_KEYWORDS.any (fun k => pyContains k (pyLower s)) = true) :
    classify timeRe s = .JIRA_UPDATE ∧ classify timeRe s ≠ .DEPLOY := by
  have hcl : classify timeRe s = .JIRA_UPDATE := by
    simp only [classify]
    rw [if_pos hj]
  refine ⟨hcl, ?_⟩
  rw [hcl]
  intro hcontra
  exact TaskCategory.noConfusion hcontra

/-- C7, witness: a text containing both "jira" and "deploy". -/
theorem c7_witness :
    (JIRA_KEYWORDS.any (fun k => pyContains k (pyLower "deploy the jira fix")) = true ∧
      DEPLOY_KEYWORDS.any (fun k => pyContains k (pyLower "deploy the jira fix")) = true) ∧
    (classify (fun _ => false) "deploy the jira fix" = .JIRA_UPDATE ∧
      classify (fun _ => false) "deploy the jira fix" ≠ .DEPLOY) :=
  ⟨⟨rfl, rfl⟩, c7_jira_beats_deploy (fun _ => false) "deploy the jira fix" rfl rfl⟩

/-- C8: every string shorter than 15 characters, and every string with
fewer than 3 whitespace-separated words, is rejected by
is_meaningful_task (the noise check fires on the stripped text, whose
length is no larger and whose word count is unchanged), for every
instantiation of the opaque regex oracles and every original-text
argument. -/
theorem c8_short_rejected (o : ReOracles) (t orig : String)
    (h : t.length < 15 ∨ pyWordCount t < 3) :
    is_meaningful_task o t orig = false := by
  by_cases h0 : t = ""
  · subst h0
    rfl
  · have hnoise : is_noise o t = true := by
      simp only [is_noise, if_neg h0]
      split_ifs with h1 h2 h3 h4
      · rfl
      · rfl
      · rfl
      · rfl
      · exfalso
        rcases h with h | h
        · apply h3
          calc (pyStrip t).length ≤ t.data.length := length_stripWs_le t.data
            _ = t.length := rfl
            _ < 15 := h
        · exact h4 (by rw [pyWordCount_strip]; exact h)
    simp [is_meaningful_task, h0, hnoise]

/-- C8, witness: a two-character, one-word string is rejected whatever
the oracle predicates say. -/
theorem c8_witness :
    (("hi" : String).length < 15 ∨ pyWordCount "hi" < 3) ∧
    is_meaningful_task oracleFalse "hi" "" = false :=
  ⟨by decide, c8_short_rejected oracleFalse "hi" "" (by decide)⟩

/-- C10: is_meaningful_task depends only on its first argument; the
original-text context parameter is never consulted, so any two values
for it give the same verdict.  This holds definitionally: the embedded
body, like the source body, never mentions the parameter. -/
theorem c10_original_text_unused (o : ReOracles) (t o₁ o₂ : String) :
    is_meaningful_task o t o₁ = is_meaningful_task o t o₂ := rfl

/-! Structural facts about the normalizer pipeline, used by C4. -/

theorem space_strip {c : Char} (h : isPySpace c = true) : isStripChar c = true := by
  simp [isStripChar, h]

theorem nonstrip_nonspace {c : Char} (h : isStripChar c = false) :
    isPySpace c = false := by
  by_contra hc
  have := space_strip (by simpa using hc)
  simp [this] at h

theorem dropWhile_id_of_head {p : Char → Bool} {m : List Char}
    (h : ∀ c, m.head? = some c → p c = false) : m.dropWhile p = m := by
  cases m with
  | nil => rfl
  | cons c t =>
    rw [List.dropWhile_cons, if_neg]
    simp [h c rfl]

theorem headNonStrip_dropWhile (m : List Char) :
    headNonStrip (m.dropWhile isStripChar) = true := by
  induction m with
  | nil => rfl
  | cons c t ih =>
    rw [List.dropWhile_cons]
    by_cases hc : isStripChar c = true
    · rw [if_pos hc]
      exact ih
    · rw [if_neg hc]
      simp only [headNonStrip, List.head?_cons]
      simp at hc
      simp [hc]

theorem headNonStrip_some {m : List Char} (h : headNonStrip m = true) :
    ∀ c, m.head? = some c → isStripChar c = false := by
  intro c hc
  simp only [headNonStrip, hc] at h
  simpa using h

theorem lastNonStrip_iff (m : List Char) :
    lastNonStrip m = headNonStrip m.reverse := by
  induction m with
  | nil => rfl
  | cons c t ih =>
    cases t with
    | nil => rfl
    | cons y ys =>
      rw [show lastNonStrip (c :: y :: ys) = lastNonStrip (y :: ys) from rfl,
        List.reverse_cons, ih]
      rcases hrev : (y :: ys).reverse with _ | ⟨z, zs⟩
      · simp at hrev
      · simp [headNonStrip]

theorem dropTrail_id {m : List Char} (h : lastNonStrip m = true) :
    dropTrail m = m := by
  rw [dropTrail, dropWhile_id_of_head, List.reverse_reverse]
  rw [lastNonStrip_iff] at h
  exact headNonStrip_some h

theorem rstrip_id_of_last {m : List Char} (h : lastNonStrip m = true) :
    rstripWs m = m := by
  rw [rstripWs, dropWhile_id_of_head, List.reverse_reverse]
  rw [lastNonStrip_iff] at h
  intro c hc
  exact nonstrip_nonspace (headNonStrip_some h c hc)

theorem dropTrail_lastNonStrip (m : List Char) :
    lastNonStrip (dropTrail m) = true := by
  rw [dropTrail, lastNonStrip_iff, List.reverse_reverse]
  exact headNonStrip_dropWhile m.reverse

theorem lastNonStrip_tail {c : Char} {t : List Char}
    (h : lastNonStrip (c :: t) = true) : lastNonStrip t = true := by
  cases t with
  | nil => rfl
  | cons y ys => exact h

theorem lastNonStrip_dropWhile (p : Char → Bool) {m : List Char}
    (h : lastNonStrip m = true) : lastNonStrip (m.dropWhile p) = true := by
  induction m with
  | nil => rfl
  | cons c t ih =>
    rw [List.dropWhile_cons]
    by_cases hc : p c = true
    · rw [if_pos hc]
      exact ih (lastNonStrip_tail h)
    · rw [if_neg hc]
      exact h

theorem lastNonStrip_drop {m : List Char} (h : lastNonStrip m = true) :
    ∀ n, lastNonStrip (m.drop n) = true := by
  induction m with
  | nil => intro n; simp [lastNonStrip]
  | cons c t ih =>
    intro n
    cases n with
    | zero => exact h
    | succ k =>
      rw [List.drop_succ_cons]
      exact ih (lastNonStrip_tail h) k

theorem collapse_ne_nil (c : Char) (t : List Char) : collapseWs (c :: t) ≠ [] := by
  induction t generalizing c with
  | nil =>
    by_cases hc : isPySpace c = true <;> simp [collapseWs, hc]
  | cons y ys ih =>
    by_cases hb : (isPySpace c && isPySpace y) = true
    · simpa [collapseWs, hb] using ih y
    · simp [collapseWs, hb]

theorem collapse_head (c : Char) (t : List Char) :
    ∃ ys, collapseWs (c :: t) = (if isPySpace c then ' ' else c) :: ys := by
  induction t generalizing c with
  | nil =>
    by_cases hc : isPySpace c = true
    · exact ⟨[], by simp [collapseWs, hc]⟩
    · exact ⟨[], by simp [collapseWs, hc]⟩
  | cons y ys ih =>
    by_cases hb : (isPySpace c && isPySpace y) = true
    · obtain ⟨zs, hzs⟩ := ih y
      have hb' := hb
      simp only [Bool.and_eq_true] at hb'
      have hcs : isPySpace c = true := hb'.1
      have hys : isPySpace y = true := hb'.2
      refine ⟨zs, ?_⟩
      rw [show collapseWs (c :: y :: ys) = collapseWs (y :: ys) by
        simp [collapseWs, hb], hzs]
      simp [hcs, hys]
    · exact ⟨collapseWs (y :: ys), by simp [collapseWs, hb]⟩

theorem collapse_lastNonStrip {m : List Char} (h : lastNonStrip m = true) :
    lastNonStrip (collapseWs m) = true := by
  induction m with
  | nil => rfl
  | cons c t ih =>
    cases t with
    | nil =>
      have hc : isStripChar c = false := by simpa [lastNonStrip] using h
      have hsp : isPySpace c = false := nonstrip_nonspace hc
      simp [collapseWs, hsp, lastNonStrip, hc]
    | cons y ys =>
      have hrest : lastNonStrip (collapseWs (y :: ys)) = true :=
        ih (lastNonStrip_tail h)
      by_cases hb : (isPySpace c && isPySpace y) = true
      · rw [show collapseWs (c :: y :: ys) = collapseWs (y :: ys) by
          simp [collapseWs, hb]]
        exact hrest
      · rw [show collapseWs (c :: y :: ys) =
            (if isPySpace c then ' ' else c) :: collapseWs (y :: ys) by
          simp [collapseWs, hb]]
        rcases hys : collapseWs (y :: ys) with _ | ⟨z, zs⟩
        · exact absurd hys (collapse_ne_nil y ys)
        · rw [hys] at hrest
          exact hrest

theorem collapse_wsOk (m : List Char) : wsOk (collapseWs m) = true := by
  induction m with
  | nil => rfl
  | cons c t ih =>
    cases t with
    | nil =>
      by_cases hc : isPySpace c = true <;> simp [collapseWs, hc, wsOk]
    | cons y ys =>
      by_cases hb : (isPySpace c && isPySpace y) = true
      · rw [show collapseWs (c :: y :: ys) = collapseWs (y :: ys) by
          simp [collapseWs, hb]]
        exact ih
      · rw [show collapseWs (c :: y :: ys) =
            (if isPySpace c then ' ' else c) :: collapseWs (y :: ys) by
          simp [collapseWs, hb]]
        rcases hys : collapseWs (y :: ys) with _ | ⟨z, zs⟩
        · exact absurd hys (collapse_ne_nil y ys)
        · rw [hys] at ih
          obtain ⟨ws, hws⟩ := collapse_head y ys
          rw [hws] at hys
          have hz : z = if isPySpace y then ' ' else y := by
            have hq := congrArg List.head? hys
            simp only [List.head?_cons, Option.some.injEq] at hq
            exact hq.symm
          by_cases hc : isPySpace c = true
          · have hy : isPySpace y = false := by
              cases hyv : isPySpace y
              · rfl
              · exact absurd (by simp [hc, hyv]) hb
            have hzspace : isPySpace z = false := by
              rw [hz, if_neg (by simp [hy])]
              exact hy
            simp [wsOk, hc, hzspace, ih]
          · simp [wsOk, hc, ih]

theorem collapse_id_of_wsOk {m : List Char} (h : wsOk m = true) :
    collapseWs m = m := by
  induction m with
  | nil => rfl
  | cons c t ih =>
    cases t with
    | nil =>
      by_cases hc : isPySpace c = true
      · have hsp : c = ' ' := by
          have := h
          simp only [wsOk, hc] at this
          simpa using this
        simp [collapseWs, hc, hsp]
      · simp [collapseWs, hc]
    | cons y ys =>
      have hparts : ((!isPySpace c || c = ' ') &&
          (!(isPySpace c && isPySpace y)) && wsOk (y :: ys)) = true := h
      simp only [Bool.and_eq_true] at hparts
      obtain ⟨⟨h1, h2⟩, h3⟩ := hparts
      have hb : (isPySpace c && isPySpace y) = false := by
        cases hcy : (isPySpace c && isPySpace y)
        · rfl
        · rw [hcy] at h2
          simp at h2
      rw [show collapseWs (c :: y :: ys) =
          (if isPySpace c then ' ' else c) :: collapseWs (y :: ys) by
        simp [collapseWs, hb], ih h3]
      by_cases hc : isPySpace c = true
      · have hsp : c = ' ' := by
          simp only [Bool.or_eq_true] at h1
          rcases h1 with h' | h'
          · simp [hc] at h'
          · simpa using h'
        rw [if_pos hc, hsp]
      · rw [if_neg hc]

theorem wsOk_tail {c : Char} {t : List Char} (h : wsOk (c :: t) = true) :
    wsOk t = true := by
  cases t with
  | nil => rfl
  | cons y ys =>
    have hparts : ((!isPySpace c || c = ' ') &&
        (!(isPySpace c && isPySpace y)) && wsOk (y :: ys)) = true := h
    simp only [Bool.and_eq_true] at hparts
    exact hparts.2

theorem wsOk_dropWhile (p : Char → Bool) {m : List Char} (h : wsOk m = true) :
    wsOk (m.dropWhile p) = true := by
  induction m with
  | nil => rfl
  | cons c t ih =>
    rw [List.dropWhile_cons]
    by_cases hc : p c = true
    · rw [if_pos hc]
      exact ih (wsOk_tail h)
    · rw [if_neg hc]
      exact h

theorem wsOk_drop {m : List Char} (h : wsOk m = true) :
    ∀ n, wsOk (m.drop n) = true := by
  induction m with
  | nil => intro n; simp [wsOk]
  | cons c t ih =>
    intro n
    cases n with
    | zero => exact h
    | succ k =>
      rw [List.drop_succ_cons]
      exact ih (wsOk_tail h) k

/-- Case analysis on the list-number removal step: it either leaves the
text unchanged or returns a whitespace-stripped tail of it. -/
theorem numPrefixDrop_cases (m : List Char) :
    numPrefixDrop m = m ∨ ∃ c rest,
      m.drop (m.takeWhile Char.isDigit).length = c :: rest ∧
      numPrefixDrop m = rest.dropWhile isPySpace := by
  by_cases hds : (m.takeWhile Char.isDigit).isEmpty = true
  · left
    simp [numPrefixDrop, hds]
  · rcases hdrop : m.drop (m.takeWhile Char.isDigit).length with _ | ⟨c, rest⟩
    · left
      simp [numPrefixDrop, hds, hdrop]
    · by_cases hpunct : (c = '.' || c = ')' || c = ']') = true
      · right
        refine ⟨c, rest, rfl, ?_⟩
        simp [numPrefixDrop, hds, hdrop, hpunct]
      · left
        simp [numPrefixDrop, hds, hdrop, hpunct]

theorem numPrefix_lastNonStrip {m : List Char} (h : lastNonStrip m = true) :
    lastNonStrip (numPrefixDrop m) = true := by
  rcases numPrefixDrop_cases m with hm | ⟨c, rest, hdrop, hm⟩
  · rw [hm]; exact h
  · rw [hm]
    have h1 : lastNonStrip (c :: rest) = true := by
      rw [← hdrop]
      exact lastNonStrip_drop h _
    exact lastNonStrip_dropWhile _ (lastNonStrip_tail h1)

theorem numPrefix_wsOk {m : List Char} (h : wsOk m = true) :
    wsOk (numPrefixDrop m) = true := by
  rcases numPrefixDrop_cases m with hm | ⟨c, rest, hdrop, hm⟩
  · rw [hm]; exact h
  · rw [hm]
    have h1 : wsOk (c :: rest) = true := by
      rw [← hdrop]
      exact wsOk_drop h _
    exact wsOk_dropWhile _ (wsOk_tail h1)

theorem headOk_strip_false {c : Char} {t : List Char}
    (h : headOkClean (c :: t) = true) :
    Char.isDigit c = false ∧ isStripChar c = false := by
  have hval : (!(c.isDigit || isStripChar c)) = true := h
  constructor
  · cases h' : c.isDigit
    · rfl
    · simp [h'] at hval
  · cases h' : isStripChar c
    · rfl
    · simp [h'] at hval

theorem dropLead_id {m : List Char} (h : headOkClean m = true) :
    dropLead m = m := by
  cases m with
  | nil => rfl
  | cons c t =>
    rw [dropLead, List.dropWhile_cons, if_neg]
    simp [(headOk_strip_false h).2]

theorem numPrefix_id_of_head {m : List Char} (h : headOkClean m = true) :
    numPrefixDrop m = m := by
  cases m with
  | nil => rfl
  | cons c t =>
    have hds : ((c :: t).takeWhile Char.isDigit).isEmpty = true := by
      rw [List.takeWhile_cons, if_neg]
      · rfl
      · simp [(headOk_strip_false h).1]
    simp [numPrefixDrop, hds]

theorem strip_id {m : List Char} (hh : headOkClean m = true)
    (hl : lastNonStrip m = true) : stripWs m = m := by
  have hlid : lstripWs m = m := by
    cases m with
    | nil => rfl
    | cons c t =>
      rw [lstripWs, List.dropWhile_cons, if_neg]
      simp [nonstrip_nonspace (headOk_strip_false hh).2]
  rw [stripWs, hlid, rstrip_id_of_last hl]

theorem cleanChars_lastNonStrip (l : List Char) :
    lastNonStrip (cleanChars l) = true := by
  have h1 := dropTrail_lastNonStrip (dropLead l)
  have h2 := collapse_lastNonStrip h1
  have h3 := numPrefix_lastNonStrip h2
  have h4 : lastNonStrip (lstripWs (numPrefixDrop (collapseWs (dropTrail (dropLead l))))) = true :=
    lastNonStrip_dropWhile _ h3
  show lastNonStrip (stripWs _) = true
  rw [stripWs, rstrip_id_of_last h4]
  exact h4

theorem cleanChars_wsOk (l : List Char) : wsOk (cleanChars l) = true := by
  have h1 := collapse_wsOk (dropTrail (dropLead l))
  have h2 := numPrefix_wsOk h1
  have hl := numPrefix_lastNonStrip
    (collapse_lastNonStrip (dropTrail_lastNonStrip (dropLead l)))
  have h4 : lastNonStrip (lstripWs (numPrefixDrop (collapseWs (dropTrail (dropLead l))))) = true :=
    lastNonStrip_dropWhile _ hl
  show wsOk (stripWs _) = true
  rw [stripWs, rstrip_id_of_last h4]
  exact wsOk_dropWhile _ h2

theorem cleanChars_idem {l : List Char}
    (h : headOkClean (cleanChars l) = true) :
    cleanChars (cleanChars l) = cleanChars l := by
  have hlast := cleanChars_lastNonStrip l
  have hws := cleanChars_wsOk l
  show stripWs (numPrefixDrop (collapseWs (dropTrail (dropLead (cleanChars l))))) =
    cleanChars l
  rw [dropLead_id h, dropTrail_id hlast, collapse_id_of_wsOk hws,
    numPrefix_id_of_head h, strip_id h hlast]

/-- C4, counterexample: CleanTaskText is not idempotent.  The list-number
removal step strips only one numeric prefix per call, so on "1.2.foo" the
first pass yields "2.foo" and a second pass strips the uncovered "2."
prefix as well, yielding "foo". -/
theorem c4_counterexample :
    clean_task_text "1.2.foo" = "2.foo" ∧
    clean_task_text (clean_task_text "1.2.foo") = "foo" ∧
    clean_task_text (clean_task_text "1.2.foo") ≠ clean_task_text "1.2.foo" :=
  ⟨rfl, rfl, by decide⟩

/-- C4, amended: CleanTaskText is idempotent on every input whose cleaned
form does not begin with an ASCII digit or a decoration character
(whitespace, hyphen, bullet, asterisk, arrow, parenthesis, bracket) —
exactly the inputs where the first pass cannot uncover a further leading
list-number prefix or decoration run.  For such inputs,
Clean(Clean(x)) = Clean(x). -/
theorem c4_amended (s : String)
    (h : headOkClean (clean_task_text s).data = true) :
    clean_task_text (clean_task_text s) = clean_task_text s := by
  have h' : headOkClean (cleanChars s.data) = true := h
  show (⟨cleanChars (cleanChars s.data)⟩ : String) = ⟨cleanChars s.data⟩
  rw [cleanChars_idem h']

/-- C4, witness: the amended idempotence at a decorated input whose
cleaned form starts with a plain letter. -/
theorem c4_witness :
    headOkClean (clean_task_text "  - hello   world  ").data = true ∧
    clean_task_text (clean_task_text "  - hello   world  ") =
      clean_task_text "  - hello   world  " :=
  ⟨by decide, c4_amended "  - hello   world  " (by decide)⟩

end TaskFlow
